import Mathlib

/-!
Verification of the transcript-segmentation and session-orchestration server
of the medical-transcription demo repository.

The multi-session server (the source file with the socket handlers for
audioData, stopRecording and disconnect, and the per-session
receiveMessage listener) is embedded here as pure Lean functions over
explicit state.  Strings are modelled as lists of characters so the two
normalization regexes can be given exact operational meaning.
-/

/-- The punctuation class of both regexes: the character class [.,?!]. -/
def isPunct (c : Char) : Bool :=
  c = '.' || c = ',' || c = '?' || c = '!'

/-- JavaScript whitespace (the regex class \s, also used by String.trim):
space, tab, line feed, vertical tab, form feed, carriage return, NBSP,
Ogham space mark, the U+2000..U+200A range, line and paragraph
separators, narrow NBSP, medium mathematical space, ideographic space,
and the BOM. -/
def isSpace (c : Char) : Bool :=
  c = ' ' || c = '\t' || c = '\n' || c = '\u000B' || c = '\u000C' || c = '\u000D' ||
  c = '\u00A0' || c = '\u1680' || (0x2000 ≤ c.toNat && c.toNat ≤ 0x200A) ||
  c = '\u2028' || c = '\u2029' || c = '\u202F' || c = '\u205F' || c = '\u3000' ||
  c = '\uFEFF'

/-- What the regex metacharacter . matches: any character except a line
terminator (LF, CR, LS, PS). -/
def regexDotMatches (c : Char) : Bool :=
  !(c = '\n' || c = '\u000D' || c = '\u2028' || c = '\u2029')

/-- JavaScript String.prototype.trim: drop whitespace from both ends. -/
def trimStr (l : List Char) : List Char :=
  ((l.dropWhile isSpace).reverse.dropWhile isSpace).reverse

/-- The global replace of the pattern \s*([.,?!])\s* by the captured
punctuation mark, with an explicit fuel argument (the scan consumes at
least one character per step, so fuel equal to the length of the list
always suffices).  The scan is the regex engine's: at each position the
greedy \s* either reaches a punctuation mark, in which case the whole
match (leading whitespace run, mark, trailing whitespace run) is
replaced by the mark alone and scanning resumes after it, or no match
starts at this position and the character is copied unchanged. -/
def stripFuel : Nat → List Char → List Char
  | _, [] => []
  | 0, l => l
  | n + 1, c :: cs =>
    if isPunct c then
      c :: stripFuel n (cs.dropWhile isSpace)
    else if isSpace c then
      match cs.dropWhile isSpace with
      | d :: ds =>
        if isPunct d then d :: stripFuel n (ds.dropWhile isSpace)
        else c :: stripFuel n cs
      | [] => c :: stripFuel n cs
    else
      c :: stripFuel n cs

/-- The first replace of the formatter: remove the whitespace around
every punctuation mark in [.,?!]. -/
def stripWsAroundPunct (l : List Char) : List Char :=
  stripFuel l.length l

/-- The second replace of the formatter: the global replace of
([.,?!])(?=.) by the mark followed by one space, i.e. one space is
inserted after every punctuation mark whose next character exists and is
matched by the regex dot (so not a line terminator).  The lookahead
consumes nothing, so scanning resumes at the character after the mark. -/
def insertSpaceAfterPunct : List Char → List Char
  | [] => []
  | c :: cs =>
    if isPunct c && (match cs with | d :: _ => regexDotMatches d | [] => false) then
      c :: ' ' :: insertSpaceAfterPunct cs
    else
      c :: insertSpaceAfterPunct cs

/-- The formattedText computation of the receiveMessage listener,
applied to the already trimmed joined text: both replaces, then trim. -/
def formatText (l : List Char) : List Char :=
  trimStr (insertSpaceAfterPunct (stripWsAroundPunct l))

/-- The full normalization pipeline applied to one string: trim, remove
whitespace around punctuation, insert one space after punctuation, trim.
This is also literally the flush expression of the stopRecording and
disconnect handlers. -/
def normalizeText (l : List Char) : List Char :=
  formatText (trimStr l)

/-! ## The speaker-turn segmenter

Data model of the transcript events delivered by the upstream
recognition client, and the per-session state mutated by the
receiveMessage listener of the multi-session server. -/

/-- One recognition alternative: content plus optional speaker label
(language and confidence are never read by the server and are omitted). -/
structure Alt where
  content : List Char
  speaker : Option (List Char)
deriving DecidableEq

/-- One result of a transcript message: its list of alternatives.  The
listener reads only alternatives[0]; an empty alternatives list would
make the original crash, so the model totalizes it to empty content. -/
structure TResult where
  alternatives : List Alt
deriving DecidableEq

/-- A transcript event: AddTranscript (final) or AddPartialTranscript.
Other upstream messages are filtered out by the listener before any of
the logic modelled here runs. -/
inductive TEvent where
  | add (results : List TResult)
  | addPartial (results : List TResult)
deriving DecidableEq

def TEvent.results : TEvent → List TResult
  | TEvent.add rs => rs
  | TEvent.addPartial rs => rs

/-- alternatives[0].content of one result. -/
def altContent (r : TResult) : List Char :=
  match r.alternatives with
  | a :: _ => a.content
  | [] => []

/-- The joined text of an event:
results.map(r to alternatives[0].content).join(one space).trim(). -/
def joinedText (rs : List TResult) : List Char :=
  trimStr (List.intercalate [' '] (rs.map altContent))

def defaultSpeaker : List Char := ['S', '1']

/-- results[0]?.alternatives[0]?.speaker or the placeholder S1; the
or-else also replaces an empty speaker string (falsy in JavaScript). -/
def resolveSpeaker (rs : List TResult) : List Char :=
  match rs with
  | [] => defaultSpeaker
  | r :: _ =>
    match r.alternatives with
    | [] => defaultSpeaker
    | a :: _ =>
      match a.speaker with
      | none => defaultSpeaker
      | some s => if s = [] then defaultSpeaker else s

/-- The segmenter state of one session: the open turn. -/
structure SegState where
  currentSpeaker : List Char
  currentText : List Char
deriving DecidableEq

/-- A display segment emitted to the caller (wall-clock timestamp not
modelled: it carries no information about the segmentation). -/
structure Segment where
  speaker : List Char
  text : List Char
deriving DecidableEq

/-- One transcription emission: the segment plus the final/preview flag. -/
structure Emission where
  segment : Segment
  isPartial : Bool
deriving DecidableEq

/-- Does the regex ^[.,?!] match, i.e. does the text start with a
punctuation mark. -/
def startsWithPunct : List Char → Bool
  | c :: _ => isPunct c
  | [] => false

/-- Does the regex [.!?]$ match, i.e. does the text end with a terminal
punctuation mark (a comma does not close a sentence). -/
def endsWithTerminal (l : List Char) : Bool :=
  match l.getLast? with
  | some c => c = '.' || c = '!' || c = '?'
  | none => false

/-- currentText ? currentText + (formattedText starts with punctuation ?
empty : one space) + formattedText : formattedText. -/
def appendFinalText (cur fmt : List Char) : List Char :=
  if cur.isEmpty then fmt
  else cur ++ (if startsWithPunct fmt then [] else [' ']) ++ fmt

/-- The preview text of a partial emission: (currentText + (currentText
nonempty and formattedText does not start with punctuation ? one space :
empty) + formattedText).trim(). -/
def previewText (cur fmt : List Char) : List Char :=
  trimStr (cur ++ (if !cur.isEmpty && !startsWithPunct fmt then [' '] else []) ++ fmt)

/-- Steps 1..2 of AddTranscript handling: on a speaker change with a
non-empty open turn, emit the open turn (its text trimmed) and reseed
currentText with the new formatted text; otherwise append.  In both
branches currentSpeaker is then set to the event speaker. -/
def addTranscriptCore (st : SegState) (speaker fmt : List Char) :
    SegState × List Emission :=
  if speaker ≠ st.currentSpeaker ∧ st.currentText ≠ [] then
    (⟨speaker, fmt⟩, [⟨⟨st.currentSpeaker, trimStr st.currentText⟩, false⟩])
  else
    (⟨speaker, appendFinalText st.currentText fmt⟩, [])

/-- Step 3 of AddTranscript handling: if currentText now ends with a
terminal punctuation mark, emit the turn as final and clear both
currentText and currentSpeaker. -/
def autoClose (st : SegState) : SegState × List Emission :=
  if endsWithTerminal st.currentText then
    (⟨[], []⟩, [⟨⟨st.currentSpeaker, trimStr st.currentText⟩, false⟩])
  else (st, [])

/-- The transcript part of the receiveMessage listener of the
multi-session server: join and trim the text (an event that is empty
after the trim is dropped), resolve the speaker, format the text, then
dispatch on the message kind.  A partial emits a preview only when its
speaker matches the open turn (or no turn is open) and never mutates
state; a final runs the core step followed by the auto-close. -/
def procEvent (st : SegState) (e : TEvent) : SegState × List Emission :=
  let text := joinedText e.results
  if text = [] then (st, [])
  else
    let speaker := resolveSpeaker e.results
    let fmt := formatText text
    match e with
    | TEvent.addPartial _ =>
      if speaker = st.currentSpeaker ∨ st.currentSpeaker = [] then
        (st, [⟨⟨speaker, previewText st.currentText fmt⟩, true⟩])
      else (st, [])
    | TEvent.add _ =>
      let r1 := addTranscriptCore st speaker fmt
      let r2 := autoClose r1.1
      (r2.1, r1.2 ++ r2.2)

/-- Fold a list of transcript events through the segmenter, keeping the
trace of all emissions in order. -/
def runSeg : SegState → List TEvent → SegState × List Emission
  | st, [] => (st, [])
  | st, e :: es =>
    let p := procEvent st e
    let r := runSeg p.1 es
    (r.1, p.2 ++ r.2)

/-! ## The single-session server's segmenter

The earlier single-session server carries one client, one
currentSpeaker and one currentText per connection; its receiveMessage
listener is translated here separately (the text pipeline — trim and
the two replaces — is character-identical in both sources and reuses
the functions above). -/

def appendFinalTextSingle (cur fmt : List Char) : List Char :=
  if cur.isEmpty then fmt
  else cur ++ (if startsWithPunct fmt then [] else [' ']) ++ fmt

def previewTextSingle (cur fmt : List Char) : List Char :=
  trimStr (cur ++ (if !cur.isEmpty && !startsWithPunct fmt then [' '] else []) ++ fmt)

def addTranscriptCoreSingle (st : SegState) (speaker fmt : List Char) :
    SegState × List Emission :=
  if speaker ≠ st.currentSpeaker ∧ st.currentText ≠ [] then
    (⟨speaker, fmt⟩, [⟨⟨st.currentSpeaker, trimStr st.currentText⟩, false⟩])
  else
    (⟨speaker, appendFinalTextSingle st.currentText fmt⟩, [])

def autoCloseSingle (st : SegState) : SegState × List Emission :=
  if endsWithTerminal st.currentText then
    (⟨[], []⟩, [⟨⟨st.currentSpeaker, trimStr st.currentText⟩, false⟩])
  else (st, [])

def procEventSingle (st : SegState) (e : TEvent) : SegState × List Emission :=
  let text := joinedText e.results
  if text = [] then (st, [])
  else
    let speaker := resolveSpeaker e.results
    let fmt := formatText text
    match e with
    | TEvent.addPartial _ =>
      if speaker = st.currentSpeaker ∨ st.currentSpeaker = [] then
        (st, [⟨⟨speaker, previewTextSingle st.currentText fmt⟩, true⟩])
      else (st, [])
    | TEvent.add _ =>
      let r1 := addTranscriptCoreSingle st speaker fmt
      let r2 := autoCloseSingle r1.1
      (r2.1, r1.2 ++ r2.2)

/-! ## The session registry and the socket handlers -/

abbrev SessionId := List Char

/-- One entry of the per-connection clients map: the nullable client
handle, the two connection flags, the segmenter fields and the (never
written, only cleared) speakerTexts map. -/
structure SessionRec where
  hasClient : Bool
  isConnected : Bool
  isConnecting : Bool
  currentSpeaker : List Char
  currentText : List Char
  speakerTexts : List (List Char × List Char)
deriving DecidableEq

/-- The record getSession installs for an unseen session id.  Note that
cleanupClient resets every field to exactly these values, so a cleaned
entry is indistinguishable from a fresh one. -/
def freshSession : SessionRec :=
  ⟨false, false, false, [], [], []⟩

/-- The clients map, modelled as an association list in insertion
order (a JavaScript Map). -/
abbrev Registry := List (SessionId × SessionRec)

def regGet : Registry → SessionId → Option SessionRec
  | [], _ => none
  | (k, v) :: r, sid => if k = sid then some v else regGet r sid

def regSet : Registry → SessionId → SessionRec → Registry
  | [], sid, v => [(sid, v)]
  | (k, w) :: r, sid, v => if k = sid then (k, v) :: r else (k, w) :: regSet r sid v

/-- getSession: return the entry for the id, creating and registering a
fresh one when absent.  The registry is never shrunk here. -/
def getSession (reg : Registry) (sid : SessionId) : Registry × SessionRec :=
  match regGet reg sid with
  | some s => (reg, s)
  | none => (regSet reg sid freshSession, freshSession)

/-- cleanupClient: when the session exists and holds a client, fire the
best-effort stopRecognition (the returned flag records that one stop
call was issued; its errors are swallowed) and reset every field; when
the session is absent or its client is already null, do nothing at all.
The map entry itself is never deleted. -/
def cleanupClient (reg : Registry) (sid : SessionId) : Registry × Bool :=
  match regGet reg sid with
  | some s =>
    if s.hasClient then (regSet reg sid freshSession, true) else (reg, false)
  | none => (reg, false)

/-- Observable actions of the socket handlers, in emission order. -/
inductive SrvAction where
  | emitTranscription (segment : Segment) (isPartial : Bool) (sessionId : SessionId)
  | emitError (sessionId : SessionId)
  | connectAttempt (sessionId : SessionId)
  | sendAudio (sessionId : SessionId)
  | stopUpstream (sessionId : SessionId)
deriving DecidableEq

def SrvAction.sessionId : SrvAction → SessionId
  | SrvAction.emitTranscription _ _ sid => sid
  | SrvAction.emitError sid => sid
  | SrvAction.connectAttempt sid => sid
  | SrvAction.sendAudio sid => sid
  | SrvAction.stopUpstream sid => sid

def stopActions (b : Bool) (sid : SessionId) : List SrvAction :=
  if b then [SrvAction.stopUpstream sid] else []

/-- The stopRecording handler: look the session up (clients.get, not
getSession), and only when it exists and holds a client: flush the open
turn if its text is nonempty — the flushed text is
currentText.trim() with both replaces and a final trim applied — as one
final transcription, then cleanupClient. -/
def handleStopRecording (reg : Registry) (sid : SessionId) : Registry × List SrvAction :=
  match regGet reg sid with
  | some s =>
    if s.hasClient then
      let ems := if s.currentText = [] then []
        else [SrvAction.emitTranscription ⟨s.currentSpeaker, normalizeText s.currentText⟩ false sid]
      let cl := cleanupClient reg sid
      (cl.1, ems ++ stopActions cl.2 sid)
    else (reg, [])
  | none => (reg, [])

/-- The asynchronous environment of one audioData invocation: whether
credential issuance plus upstream start fails, whether the bounded wait
for the RecognitionStarted acknowledgment times out, and whether the
audio write fails after the connection is up. -/
inductive NetOutcome where
  | connectFail
  | waitTimeout
  | connectedThenSendFail
  | connectedOk
deriving DecidableEq

/-- The audioData handler.  The connect path (no client and not already
connecting) marks the session connecting, throws when the credential
secret is absent (caught by the outer catch: cleanupClient then an
error emission), otherwise installs the client and attempts the
connection; connection failure hits the inner catch (cleanupClient,
error, return), a wait timeout or a later send failure hits the outer
catch, and on success the RecognitionStarted listener has set the
session connected before the audio write.  When a client already exists
or a connect is in flight the handler skips to the bounded wait and the
audio write. -/
def handleAudioData (hasApiKey : Bool) (net : NetOutcome) (reg : Registry)
    (sid : SessionId) : Registry × List SrvAction :=
  let gs := getSession reg sid
  let reg1 := gs.1
  let s := gs.2
  if s.hasClient = false ∧ s.isConnecting = false then
    let s1 : SessionRec := { s with isConnecting := true }
    let reg2 := regSet reg1 sid s1
    if hasApiKey = false then
      let cl := cleanupClient reg2 sid
      (cl.1, stopActions cl.2 sid ++ [SrvAction.emitError sid])
    else
      let s2 : SessionRec := { s1 with hasClient := true }
      let reg3 := regSet reg2 sid s2
      match net with
      | NetOutcome.connectFail =>
        let cl := cleanupClient reg3 sid
        (cl.1, SrvAction.connectAttempt sid :: (stopActions cl.2 sid ++ [SrvAction.emitError sid]))
      | NetOutcome.waitTimeout =>
        let cl := cleanupClient reg3 sid
        (cl.1, SrvAction.connectAttempt sid :: (stopActions cl.2 sid ++ [SrvAction.emitError sid]))
      | NetOutcome.connectedThenSendFail =>
        let s3 : SessionRec := { s2 with isConnected := true, isConnecting := false }
        let reg4 := regSet reg3 sid s3
        let cl := cleanupClient reg4 sid
        (cl.1, SrvAction.connectAttempt sid :: (stopActions cl.2 sid ++ [SrvAction.emitError sid]))
      | NetOutcome.connectedOk =>
        let s3 : SessionRec := { s2 with isConnected := true, isConnecting := false }
        (regSet reg3 sid s3, [SrvAction.connectAttempt sid, SrvAction.sendAudio sid])
  else
    if s.isConnected then
      match net with
      | NetOutcome.connectedThenSendFail =>
        let cl := cleanupClient reg1 sid
        (cl.1, stopActions cl.2 sid ++ [SrvAction.emitError sid])
      | _ => (reg1, [SrvAction.sendAudio sid])
    else
      match net with
      | NetOutcome.connectedOk =>
        let s3 : SessionRec := { s with isConnected := true, isConnecting := false }
        (regSet reg1 sid s3, [SrvAction.sendAudio sid])
      | NetOutcome.connectedThenSendFail =>
        let s3 : SessionRec := { s with isConnected := true, isConnecting := false }
        let reg4 := regSet reg1 sid s3
        let cl := cleanupClient reg4 sid
        (cl.1, stopActions cl.2 sid ++ [SrvAction.emitError sid])
      | _ =>
        let cl := cleanupClient reg1 sid
        (cl.1, stopActions cl.2 sid ++ [SrvAction.emitError sid])

/-- Delivery of one transcript event to one session's listener: the
listener closure reads and writes the segmenter fields of its own
session record only, and every emission is tagged with its session id. -/
def handleTranscriptEvent (reg : Registry) (sid : SessionId) (e : TEvent) :
    Registry × List SrvAction :=
  let gs := getSession reg sid
  let pr := procEvent ⟨gs.2.currentSpeaker, gs.2.currentText⟩ e
  (regSet gs.1 sid
     { gs.2 with currentSpeaker := pr.1.currentSpeaker, currentText := pr.1.currentText },
   pr.2.map (fun em => SrvAction.emitTranscription em.segment em.isPartial sid))

/-- An interleaved delivery of transcript events to many sessions. -/
def runEvents : Registry → List (SessionId × TEvent) → Registry × List SrvAction
  | reg, [] => (reg, [])
  | reg, (sid, e) :: evs =>
    let h := handleTranscriptEvent reg sid e
    let r := runEvents h.1 evs
    (r.1, h.2 ++ r.2)

/-- The segmenter state a session id currently holds (fresh if the id
is unregistered). -/
def sessionSegState (reg : Registry) (sid : SessionId) : SegState :=
  match regGet reg sid with
  | some s => ⟨s.currentSpeaker, s.currentText⟩
  | none => ⟨[], []⟩

/-- The subsequence of an interleaving belonging to one session. -/
def eventsFor (sid : SessionId) (evs : List (SessionId × TEvent)) : List TEvent :=
  evs.filterMap (fun p => if p.1 = sid then some p.2 else none)

/-- The subtrace of actions tagged with one session id. -/
def actionsFor (sid : SessionId) (acts : List SrvAction) : List SrvAction :=
  acts.filter (fun a => SrvAction.sessionId a = sid)

/-- The at-most-one-open-turn invariant of the segmenter state: the
open text is nonempty exactly when a speaker holds the floor. -/
def segInv (st : SegState) : Prop :=
  st.currentText = [] ↔ st.currentSpeaker = []

/-- A one-result final transcript event, for the concrete scenarios. -/
def mkFinal (spk txt : String) : TEvent :=
  TEvent.add [⟨[⟨txt.toList, some spk.toList⟩]⟩]

/-- A one-result partial transcript event, for the concrete scenarios. -/
def mkPartialEv (spk txt : String) : TEvent :=
  TEvent.addPartial [⟨[⟨txt.toList, some spk.toList⟩]⟩]

/-- The separation property of the output of the first replace: no
whitespace character is adjacent to a punctuation mark. -/
def noSpacePunctAdj (a b : Char) : Prop :=
  (isPunct a = true → isSpace b = false) ∧ (isSpace a = true → isPunct b = false)

/-! ### Basic facts about the character classes -/

theorem isSpace_of_isPunct {c : Char} (h : isPunct c = true) : isSpace c = false := by
  simp only [isPunct, Bool.or_eq_true, decide_eq_true_eq] at h
  rcases h with ((rfl | rfl) | rfl) | rfl <;> decide

theorem isPunct_of_isSpace {c : Char} (h : isSpace c = true) : isPunct c = false := by
  cases hp : isPunct c
  · rfl
  · rw [isSpace_of_isPunct hp] at h
    exact absurd h (by simp)

theorem isSpace_of_not_regexDot {c : Char} (h : regexDotMatches c = false) :
    isSpace c = true := by
  simp only [regexDotMatches, Bool.not_eq_false', Bool.or_eq_true,
    decide_eq_true_eq] at h
  rcases h with ((rfl | rfl) | rfl) | rfl <;> decide

theorem regexDotMatches_of_not_space {c : Char} (h : isSpace c = false) :
    regexDotMatches c = true := by
  cases hr : regexDotMatches c
  · rw [isSpace_of_not_regexDot hr] at h
    exact absurd h (by simp)
  · rfl

/-! ### Fuel irrelevance and unfolding equations for the first replace -/

theorem length_dropWhile_le (p : Char → Bool) (l : List Char) :
    (l.dropWhile p).length ≤ l.length := by
  induction l with
  | nil => simp
  | cons c cs ih =>
    by_cases h : p c
    · rw [List.dropWhile_cons_of_pos h]
      exact Nat.le_trans ih (Nat.le_succ _)
    · rw [List.dropWhile_cons_of_neg h]

theorem stripFuel_congr :
    ∀ (n m : Nat) (l : List Char), l.length ≤ n → l.length ≤ m →
      stripFuel n l = stripFuel m l := by
  intro n
  induction n with
  | zero =>
    intro m l hn _
    have : l = [] := List.length_eq_zero.mp (Nat.le_zero.mp hn)
    subst this
    cases m <;> rfl
  | succ n ih =>
    intro m l hn hm
    match l with
    | [] => cases m <;> rfl
    | c :: cs =>
      match m with
      | 0 => exact absurd hm (by simp)
      | m + 1 =>
        have hcs_n : cs.length ≤ n := Nat.le_of_succ_le_succ hn
        have hcs_m : cs.length ≤ m := Nat.le_of_succ_le_succ hm
        have hdrop_n : (cs.dropWhile isSpace).length ≤ n :=
          Nat.le_trans (length_dropWhile_le _ _) hcs_n
        have hdrop_m : (cs.dropWhile isSpace).length ≤ m :=
          Nat.le_trans (length_dropWhile_le _ _) hcs_m
        simp only [stripFuel]
        by_cases hp : isPunct c
        · simp only [hp, if_true]
          rw [ih m _ hdrop_n hdrop_m]
        · simp only [hp, Bool.false_eq_true, if_false]
          by_cases hs : isSpace c
          · simp only [hs, if_true]
            cases hd : cs.dropWhile isSpace with
            | nil => rw [ih m cs hcs_n hcs_m]
            | cons d ds =>
              by_cases hpd : isPunct d
              · simp only [hpd, if_true]
                have hlt : ds.length < (cs.dropWhile isSpace).length := by
                  rw [hd]; simp
                have h1 : (ds.dropWhile isSpace).length ≤ n :=
                  Nat.le_trans (length_dropWhile_le _ _)
                    (Nat.le_trans (Nat.le_of_lt hlt) hdrop_n)
                have h2 : (ds.dropWhile isSpace).length ≤ m :=
                  Nat.le_trans (length_dropWhile_le _ _)
                    (Nat.le_trans (Nat.le_of_lt hlt) hdrop_m)
                rw [ih m _ h1 h2]
              · simp only [hpd, Bool.false_eq_true, if_false]
                rw [ih m cs hcs_n hcs_m]
          · simp only [hs, Bool.false_eq_true, if_false]
            rw [ih m cs hcs_n hcs_m]

theorem strip_nil : stripWsAroundPunct [] = [] := rfl

theorem strip_cons_punct {c : Char} {cs : List Char} (h : isPunct c = true) :
    stripWsAroundPunct (c :: cs) = c :: stripWsAroundPunct (cs.dropWhile isSpace) := by
  show stripFuel (cs.length + 1) (c :: cs) = _
  simp only [stripFuel, h, if_true]
  rw [stripWsAroundPunct,
    stripFuel_congr cs.length (cs.dropWhile isSpace).length (cs.dropWhile isSpace)
      (length_dropWhile_le _ _) (Nat.le_refl _)]

theorem strip_cons_space_punct {c d : Char} {cs ds : List Char}
    (hc : isSpace c = true) (hd : cs.dropWhile isSpace = d :: ds)
    (hp : isPunct d = true) :
    stripWsAroundPunct (c :: cs) = d :: stripWsAroundPunct (ds.dropWhile isSpace) := by
  have hcp : isPunct c = false := isPunct_of_isSpace hc
  show stripFuel (cs.length + 1) (c :: cs) = _
  simp only [stripFuel, hcp, hc, if_true, Bool.false_eq_true, if_false, hd, hp]
  have hds : ds.length < cs.length := by
    have h1 : (d :: ds).length ≤ cs.length := hd ▸ length_dropWhile_le _ _
    simpa using h1
  rw [stripWsAroundPunct,
    stripFuel_congr cs.length (ds.dropWhile isSpace).length (ds.dropWhile isSpace)
      (Nat.le_trans (length_dropWhile_le _ _) (Nat.le_of_lt hds))
      (Nat.le_refl _)]

theorem strip_cons_space_nopunct {c : Char} {cs : List Char}
    (hc : isSpace c = true)
    (h : ∀ d ds, cs.dropWhile isSpace = d :: ds → isPunct d = false) :
    stripWsAroundPunct (c :: cs) = c :: stripWsAroundPunct cs := by
  have hcp : isPunct c = false := isPunct_of_isSpace hc
  show stripFuel (cs.length + 1) (c :: cs) = _
  simp only [stripFuel, hcp, hc, if_true, Bool.false_eq_true, if_false]
  cases hd : cs.dropWhile isSpace with
  | nil => rfl
  | cons d ds => simp only [h d ds hd, Bool.false_eq_true, if_false]; rfl

theorem strip_cons_other {c : Char} {cs : List Char}
    (h1 : isPunct c = false) (h2 : isSpace c = false) :
    stripWsAroundPunct (c :: cs) = c :: stripWsAroundPunct cs := by
  show stripFuel (cs.length + 1) (c :: cs) = _
  simp only [stripFuel, h1, h2, Bool.false_eq_true, if_false]
  rfl



/-! ### Structure of the output of the first replace -/

theorem strip_cases (c : Char) (cs : List Char) :
    (isPunct c = true ∧
       stripWsAroundPunct (c :: cs) = c :: stripWsAroundPunct (cs.dropWhile isSpace)) ∨
    (∃ d ds, isSpace c = true ∧ cs.dropWhile isSpace = d :: ds ∧ isPunct d = true ∧
       stripWsAroundPunct (c :: cs) = d :: stripWsAroundPunct (ds.dropWhile isSpace)) ∨
    (isSpace c = true ∧ (∀ d ds, cs.dropWhile isSpace = d :: ds → isPunct d = false) ∧
       stripWsAroundPunct (c :: cs) = c :: stripWsAroundPunct cs) ∨
    (isPunct c = false ∧ isSpace c = false ∧
       stripWsAroundPunct (c :: cs) = c :: stripWsAroundPunct cs) := by
  by_cases hp : isPunct c
  · exact Or.inl ⟨hp, strip_cons_punct hp⟩
  · by_cases hs : isSpace c
    · by_cases hex : ∃ d ds, cs.dropWhile isSpace = d :: ds ∧ isPunct d = true
      · obtain ⟨d, ds, hd, hpd⟩ := hex
        exact Or.inr (Or.inl ⟨d, ds, hs, hd, hpd, strip_cons_space_punct hs hd hpd⟩)
      · have hno : ∀ d ds, cs.dropWhile isSpace = d :: ds → isPunct d = false := by
          intro d ds hd
          cases hpd : isPunct d with
          | false => rfl
          | true => exact absurd ⟨d, ds, hd, hpd⟩ hex
        exact Or.inr (Or.inr (Or.inl ⟨hs, hno, strip_cons_space_nopunct hs hno⟩))
    · exact Or.inr (Or.inr (Or.inr ⟨Bool.eq_false_iff.mpr hp, Bool.eq_false_iff.mpr hs,
        strip_cons_other (Bool.eq_false_iff.mpr hp) (Bool.eq_false_iff.mpr hs)⟩))

theorem strip_ne_nil {l : List Char} (h : l ≠ []) : stripWsAroundPunct l ≠ [] := by
  match l with
  | [] => exact absurd rfl h
  | c :: cs =>
    rcases strip_cases c cs with ⟨_, he⟩ | ⟨d, ds, _, _, _, he⟩ | ⟨_, _, he⟩ | ⟨_, _, he⟩ <;>
      rw [he] <;> exact List.cons_ne_nil _ _

theorem head?_dropWhile_space : ∀ {l : List Char} {x : Char},
    (l.dropWhile isSpace).head? = some x → isSpace x = false := by
  intro l
  induction l with
  | nil => intro x h; simp at h
  | cons c cs ih =>
    intro x h
    by_cases hs : isSpace c
    · rw [List.dropWhile_cons_of_pos hs] at h
      exact ih h
    · rw [List.dropWhile_cons_of_neg hs, List.head?_cons] at h
      injection h with h
      subst h
      exact Bool.eq_false_iff.mpr hs

theorem strip_head_space : ∀ {l : List Char} {x : Char},
    (stripWsAroundPunct l).head? = some x → isSpace x = true → l.head? = some x := by
  intro l x h hx
  match l with
  | [] => rw [strip_nil] at h; simp at h
  | c :: cs =>
    rcases strip_cases c cs with ⟨hp, he⟩ | ⟨d, ds, hs, hd, hpd, he⟩ | ⟨hs, hnp, he⟩ |
        ⟨hp, hs, he⟩ <;>
      rw [he, List.head?_cons] at h <;> injection h with h <;> subst h
    · rw [isSpace_of_isPunct hp] at hx; exact Bool.noConfusion hx
    · rw [isSpace_of_isPunct hpd] at hx; exact Bool.noConfusion hx
    · rfl
    · rfl

theorem strip_head_punct : ∀ {l : List Char} {x : Char},
    (stripWsAroundPunct l).head? = some x → isPunct x = true →
    ∃ ys, l.dropWhile isSpace = x :: ys := by
  intro l x h hx
  match l with
  | [] => rw [strip_nil] at h; simp at h
  | c :: cs =>
    rcases strip_cases c cs with ⟨hp, he⟩ | ⟨d, ds, hs, hd, hpd, he⟩ | ⟨hs, hnp, he⟩ |
        ⟨hp, hs, he⟩ <;>
      rw [he, List.head?_cons] at h <;> injection h with h <;> subst h
    · exact ⟨cs, List.dropWhile_cons_of_neg (by rw [isSpace_of_isPunct hp]; simp)⟩
    · exact ⟨ds, by rw [List.dropWhile_cons_of_pos hs, hd]⟩
    · rw [isPunct_of_isSpace hs] at hx; exact Bool.noConfusion hx
    · rw [hp] at hx; exact Bool.noConfusion hx

theorem chain_strip_aux : ∀ (n : Nat) (l : List Char), l.length ≤ n →
    List.Chain' noSpacePunctAdj (stripWsAroundPunct l) := by
  intro n
  induction n with
  | zero =>
    intro l hl
    have h0 : l = [] := List.length_eq_zero.mp (Nat.le_zero.mp hl)
    subst h0
    rw [strip_nil]
    exact List.chain'_nil
  | succ n ih =>
    intro l hl
    match l with
    | [] => rw [strip_nil]; exact List.chain'_nil
    | c :: cs =>
      have hcs : cs.length ≤ n := Nat.le_of_succ_le_succ hl
      rcases strip_cases c cs with ⟨hp, he⟩ | ⟨d, ds, hs, hd, hpd, he⟩ | ⟨hs, hnp, he⟩ |
          ⟨hp, hs, he⟩
      · rw [he]
        refine List.chain'_cons'.mpr
          ⟨?_, ih _ (Nat.le_trans (length_dropWhile_le _ _) hcs)⟩
        intro y hy
        rw [Option.mem_def] at hy
        constructor
        · intro _
          cases hsy : isSpace y with
          | false => rfl
          | true =>
            have h1 := strip_head_space hy hsy
            have h2 := head?_dropWhile_space h1
            rw [hsy] at h2
            exact Bool.noConfusion h2
        · intro hsc
          rw [isSpace_of_isPunct hp] at hsc
          exact Bool.noConfusion hsc
      · rw [he]
        have hlt : ds.length < (cs.dropWhile isSpace).length := by rw [hd]; simp
        have hlen : (ds.dropWhile isSpace).length ≤ n :=
          Nat.le_trans (length_dropWhile_le _ _)
            (Nat.le_trans (Nat.le_of_lt hlt)
              (Nat.le_trans (length_dropWhile_le _ _) hcs))
        refine List.chain'_cons'.mpr ⟨?_, ih _ hlen⟩
        intro y hy
        rw [Option.mem_def] at hy
        constructor
        · intro _
          cases hsy : isSpace y with
          | false => rfl
          | true =>
            have h1 := strip_head_space hy hsy
            have h2 := head?_dropWhile_space h1
            rw [hsy] at h2
            exact Bool.noConfusion h2
        · intro hsc
          rw [isSpace_of_isPunct hpd] at hsc
          exact Bool.noConfusion hsc
      · rw [he]
        refine List.chain'_cons'.mpr ⟨?_, ih cs hcs⟩
        intro y hy
        rw [Option.mem_def] at hy
        constructor
        · intro hpc
          rw [isPunct_of_isSpace hs] at hpc
          exact Bool.noConfusion hpc
        · intro _
          cases hpy : isPunct y with
          | false => rfl
          | true =>
            obtain ⟨ys, hys⟩ := strip_head_punct hy hpy
            have h1 := hnp y ys hys
            rw [hpy] at h1
            exact Bool.noConfusion h1
      · rw [he]
        refine List.chain'_cons'.mpr ⟨?_, ih cs hcs⟩
        intro y hy
        constructor
        · intro hpc
          rw [hp] at hpc
          exact Bool.noConfusion hpc
        · intro hsc
          rw [hs] at hsc
          exact Bool.noConfusion hsc

theorem chain_strip (l : List Char) :
    List.Chain' noSpacePunctAdj (stripWsAroundPunct l) :=
  chain_strip_aux l.length l (Nat.le_refl _)

/-! ### Last-character facts, and the second replace -/

theorem getLast?_cons_of_ne_nil {a : Char} {l : List Char} (h : l ≠ []) :
    (a :: l).getLast? = l.getLast? := by
  match l with
  | [] => exact absurd rfl h
  | b :: t => exact List.getLast?_cons_cons

theorem getLast?_dropWhile {l : List Char} (h : l.dropWhile isSpace ≠ []) :
    (l.dropWhile isSpace).getLast? = l.getLast? := by
  induction l with
  | nil => simp at h
  | cons c cs ih =>
    by_cases hs : isSpace c
    · rw [List.dropWhile_cons_of_pos hs] at h
      have hcs : cs ≠ [] := by
        intro hn; rw [hn] at h; simp at h
      rw [List.dropWhile_cons_of_pos hs, ih h, getLast?_cons_of_ne_nil hcs]
    · rw [List.dropWhile_cons_of_neg hs]

theorem strip_getLast_aux : ∀ (n : Nat) (l : List Char), l.length ≤ n →
    (∀ x, l.getLast? = some x → isSpace x = false) →
    ∀ x, (stripWsAroundPunct l).getLast? = some x → isSpace x = false := by
  intro n
  induction n with
  | zero =>
    intro l hl _ x hx
    have h0 : l = [] := List.length_eq_zero.mp (Nat.le_zero.mp hl)
    subst h0
    rw [strip_nil] at hx
    simp at hx
  | succ n ih =>
    intro l hl hend x hx
    match l with
    | [] => rw [strip_nil] at hx; simp at hx
    | c :: cs =>
      have hcs : cs.length ≤ n := Nat.le_of_succ_le_succ hl
      rcases strip_cases c cs with ⟨hp, he⟩ | ⟨d, ds, hs, hd, hpd, he⟩ | ⟨hs, hnp, he⟩ |
          ⟨hp, hs, he⟩
      · rw [he] at hx
        cases hm : stripWsAroundPunct (cs.dropWhile isSpace) with
        | nil =>
          rw [hm] at hx
          simp only [List.getLast?_singleton, Option.some.injEq] at hx
          rw [← hx]
          exact isSpace_of_isPunct hp
        | cons m ms =>
          rw [hm, getLast?_cons_of_ne_nil (List.cons_ne_nil _ _), ← hm] at hx
          have hne : cs.dropWhile isSpace ≠ [] := by
            intro hz; rw [hz, strip_nil] at hm; simp at hm
          have hcsne : cs ≠ [] := by
            intro hz; rw [hz] at hne; simp at hne
          refine ih (cs.dropWhile isSpace)
            (Nat.le_trans (length_dropWhile_le _ _) hcs) ?_ x hx
          intro y hy
          rw [getLast?_dropWhile hne] at hy
          exact hend y (by rw [getLast?_cons_of_ne_nil hcsne]; exact hy)
      · rw [he] at hx
        cases hm : stripWsAroundPunct (ds.dropWhile isSpace) with
        | nil =>
          rw [hm] at hx
          simp only [List.getLast?_singleton, Option.some.injEq] at hx
          rw [← hx]
          exact isSpace_of_isPunct hpd
        | cons m ms =>
          rw [hm, getLast?_cons_of_ne_nil (List.cons_ne_nil _ _), ← hm] at hx
          have hne : ds.dropWhile isSpace ≠ [] := by
            intro hz; rw [hz, strip_nil] at hm; simp at hm
          have hdsne : ds ≠ [] := by
            intro hz; rw [hz] at hne; simp at hne
          have hcddne : cs.dropWhile isSpace ≠ [] := by rw [hd]; simp
          have hcsne : cs ≠ [] := by
            intro hz; rw [hz] at hcddne; simp at hcddne
          have hlt : ds.length < (cs.dropWhile isSpace).length := by rw [hd]; simp
          have hlen : (ds.dropWhile isSpace).length ≤ n :=
            Nat.le_trans (length_dropWhile_le _ _)
              (Nat.le_trans (Nat.le_of_lt hlt)
                (Nat.le_trans (length_dropWhile_le _ _) hcs))
          refine ih (ds.dropWhile isSpace) hlen ?_ x hx
          intro y hy
          rw [getLast?_dropWhile hne] at hy
          have h2 : (cs.dropWhile isSpace).getLast? = some y := by
            rw [hd, getLast?_cons_of_ne_nil hdsne]; exact hy
          rw [getLast?_dropWhile hcddne] at h2
          exact hend y (by rw [getLast?_cons_of_ne_nil hcsne]; exact h2)
      · rw [he] at hx
        cases hm : stripWsAroundPunct cs with
        | nil =>
          have hz : cs = [] := by
            by_contra hzz
            exact strip_ne_nil hzz hm
          subst hz
          have h1 := hend c (by simp)
          rw [hs] at h1
          exact Bool.noConfusion h1
        | cons m ms =>
          rw [hm, getLast?_cons_of_ne_nil (List.cons_ne_nil _ _), ← hm] at hx
          have hcsne : cs ≠ [] := by
            intro hz; rw [hz, strip_nil] at hm; simp at hm
          refine ih cs hcs ?_ x hx
          intro y hy
          exact hend y (by rw [getLast?_cons_of_ne_nil hcsne]; exact hy)
      · rw [he] at hx
        cases hm : stripWsAroundPunct cs with
        | nil =>
          have hz : cs = [] := by
            by_contra hzz
            exact strip_ne_nil hzz hm
          subst hz
          rw [hm] at hx
          simp only [List.getLast?_singleton, Option.some.injEq] at hx
          rw [← hx]
          exact hs
        | cons m ms =>
          rw [hm, getLast?_cons_of_ne_nil (List.cons_ne_nil _ _), ← hm] at hx
          have hcsne : cs ≠ [] := by
            intro hz; rw [hz, strip_nil] at hm; simp at hm
          refine ih cs hcs ?_ x hx
          intro y hy
          exact hend y (by rw [getLast?_cons_of_ne_nil hcsne]; exact hy)

theorem insert_singleton (c : Char) : insertSpaceAfterPunct [c] = [c] := by
  show (if isPunct c && false then c :: ' ' :: insertSpaceAfterPunct []
        else c :: insertSpaceAfterPunct []) = [c]
  rw [Bool.and_false]
  rfl

theorem insert_cons_cons (c d : Char) (rest : List Char) :
    insertSpaceAfterPunct (c :: d :: rest) =
      if isPunct c && regexDotMatches d then
        c :: ' ' :: insertSpaceAfterPunct (d :: rest)
      else c :: insertSpaceAfterPunct (d :: rest) := rfl

theorem insert_ne_nil {l : List Char} (h : l ≠ []) : insertSpaceAfterPunct l ≠ [] := by
  match l with
  | [] => exact absurd rfl h
  | [c] => rw [insert_singleton]; exact List.cons_ne_nil _ _
  | c :: d :: rest =>
    rw [insert_cons_cons]
    split <;> exact List.cons_ne_nil _ _

theorem insert_head? (l : List Char) :
    (insertSpaceAfterPunct l).head? = l.head? := by
  match l with
  | [] => rfl
  | [c] => rw [insert_singleton]
  | c :: d :: rest => rw [insert_cons_cons]; split <;> rfl

theorem insert_getLast? : ∀ (l : List Char),
    (insertSpaceAfterPunct l).getLast? = l.getLast? := by
  intro l
  induction l with
  | nil => rfl
  | cons c cs ih =>
    cases cs with
    | nil => rw [insert_singleton]
    | cons d rest =>
      have hne : insertSpaceAfterPunct (d :: rest) ≠ [] :=
        insert_ne_nil (List.cons_ne_nil _ _)
      rw [insert_cons_cons]
      split
      · rw [getLast?_cons_of_ne_nil (List.cons_ne_nil _ _),
          getLast?_cons_of_ne_nil hne, ih,
          getLast?_cons_of_ne_nil (List.cons_ne_nil _ _)]
      · rw [getLast?_cons_of_ne_nil hne, ih,
          getLast?_cons_of_ne_nil (List.cons_ne_nil _ _)]

theorem dropWhile_insert : ∀ (l : List Char),
    (insertSpaceAfterPunct l).dropWhile isSpace =
      insertSpaceAfterPunct (l.dropWhile isSpace) := by
  intro l
  induction l with
  | nil => rfl
  | cons c cs ih =>
    cases cs with
    | nil =>
      rw [insert_singleton]
      by_cases hs : isSpace c
      · rw [List.dropWhile_cons_of_pos hs]
        rfl
      · rw [List.dropWhile_cons_of_neg hs, insert_singleton]
    | cons d rest =>
      by_cases hs : isSpace c
      · have hp : isPunct c = false := isPunct_of_isSpace hs
        rw [insert_cons_cons]
        simp only [hp, Bool.false_and, Bool.false_eq_true, if_false]
        rw [List.dropWhile_cons_of_pos hs, List.dropWhile_cons_of_pos hs, ih]
      · rw [List.dropWhile_cons_of_neg hs, insert_cons_cons]
        split
        · rw [List.dropWhile_cons_of_neg hs]
        · rw [List.dropWhile_cons_of_neg hs]

theorem mem_insert_of_mem : ∀ {l : List Char} {x : Char},
    x ∈ l → x ∈ insertSpaceAfterPunct l := by
  intro l
  induction l with
  | nil => intro x h; simp at h
  | cons c cs ih =>
    intro x h
    rcases List.mem_cons.mp h with rfl | h2
    · match cs with
      | [] => rw [insert_singleton]; exact List.mem_cons_self _ _
      | d :: rest => rw [insert_cons_cons]; split <;> exact List.mem_cons_self _ _
    · match cs with
      | [] => simp at h2
      | d :: rest =>
        rw [insert_cons_cons]
        split
        · exact List.mem_cons_of_mem _ (List.mem_cons_of_mem _ (ih h2))
        · exact List.mem_cons_of_mem _ (ih h2)

/-! ### The first replace undoes the second on separated text -/

theorem chain_dropWhile_nopunct : ∀ (l : List Char) (c : Char),
    List.Chain' noSpacePunctAdj (c :: l) → isSpace c = true →
    ∀ e es, l.dropWhile isSpace = e :: es → isPunct e = false := by
  intro l
  induction l with
  | nil => intro c _ _ e es h; simp at h
  | cons d rest ih =>
    intro c hch hs e es h
    have h1 := List.chain'_cons.mp hch
    by_cases hsd : isSpace d
    · rw [List.dropWhile_cons_of_pos hsd] at h
      exact ih d h1.2 hsd e es h
    · rw [List.dropWhile_cons_of_neg hsd] at h
      injection h with he1 he2
      rw [← he1]
      exact h1.1.2 hs

theorem dropWhile_eq_self_of_head {l : List Char}
    (h : ∀ x, l.head? = some x → isSpace x = false) : l.dropWhile isSpace = l := by
  match l with
  | [] => rfl
  | c :: cs =>
    refine List.dropWhile_cons_of_neg ?_
    rw [h c rfl]
    simp

theorem strip_insert_of_chain : ∀ {l : List Char},
    List.Chain' noSpacePunctAdj l →
    stripWsAroundPunct (insertSpaceAfterPunct l) = l := by
  intro l
  induction l with
  | nil => intro _; rfl
  | cons c cs ih =>
    intro hch
    cases cs with
    | nil =>
      rw [insert_singleton]
      by_cases hp : isPunct c
      · rw [strip_cons_punct hp]; rfl
      · by_cases hs : isSpace c
        · rw [strip_cons_space_nopunct hs (by intro d ds h; simp at h)]; rfl
        · rw [strip_cons_other (Bool.eq_false_iff.mpr hp) (Bool.eq_false_iff.mpr hs)]
          rfl
    | cons d rest =>
      have hsplit := List.chain'_cons.mp hch
      have ihd : stripWsAroundPunct (insertSpaceAfterPunct (d :: rest)) = d :: rest :=
        ih hsplit.2
      have hmhead : ∀ x, (insertSpaceAfterPunct (d :: rest)).head? = some x → x = d := by
        intro x hx
        rw [insert_head?, List.head?_cons] at hx
        injection hx with hx
        exact hx.symm
      by_cases hp : isPunct c
      · have hdns : isSpace d = false := hsplit.1.1 hp
        have hcond : (isPunct c && regexDotMatches d) = true := by
          rw [hp, regexDotMatches_of_not_space hdns]
          rfl
        rw [insert_cons_cons, if_pos hcond, strip_cons_punct hp,
          List.dropWhile_cons_of_pos (show isSpace ' ' = true by decide),
          dropWhile_eq_self_of_head (fun x hx => by rw [hmhead x hx]; exact hdns),
          ihd]
      · have hpf : isPunct c = false := Bool.eq_false_iff.mpr hp
        rw [insert_cons_cons]
        simp only [hpf, Bool.false_and, Bool.false_eq_true, if_false]
        by_cases hs : isSpace c
        · have hno : ∀ e es,
              (insertSpaceAfterPunct (d :: rest)).dropWhile isSpace = e :: es →
              isPunct e = false := by
            intro e es he
            rw [dropWhile_insert] at he
            cases hq : (d :: rest).dropWhile isSpace with
            | nil => rw [hq] at he; exact List.noConfusion he
            | cons e2 es2 =>
              rw [hq] at he
              have he2 : e = e2 := by
                have hh : (insertSpaceAfterPunct (e2 :: es2)).head? = some e := by
                  rw [he]; rfl
                rw [insert_head?, List.head?_cons] at hh
                injection hh with hh
                exact hh.symm
              rw [he2]
              exact chain_dropWhile_nopunct (d :: rest) c hch hs e2 es2 hq
          rw [strip_cons_space_nopunct hs hno, ihd]
        · rw [strip_cons_other hpf (Bool.eq_false_iff.mpr hs), ihd]

/-! ### Trimming -/

theorem trim_head_not_space {l : List Char} {x : Char}
    (h : (trimStr l).head? = some x) : isSpace x = false := by
  unfold trimStr at h
  rw [List.head?_reverse] at h
  have hne : (l.dropWhile isSpace).reverse.dropWhile isSpace ≠ [] := by
    intro hz; rw [hz] at h; simp at h
  rw [getLast?_dropWhile hne, List.getLast?_reverse] at h
  exact head?_dropWhile_space h

theorem trim_getLast_not_space {l : List Char} {x : Char}
    (h : (trimStr l).getLast? = some x) : isSpace x = false := by
  unfold trimStr at h
  rw [List.getLast?_reverse] at h
  exact head?_dropWhile_space h

theorem trim_eq_self {l : List Char}
    (h1 : ∀ x, l.head? = some x → isSpace x = false)
    (h2 : ∀ x, l.getLast? = some x → isSpace x = false) : trimStr l = l := by
  unfold trimStr
  rw [dropWhile_eq_self_of_head h1,
    dropWhile_eq_self_of_head (fun x hx => h2 x (by rwa [List.head?_reverse] at hx))]
  exact List.reverse_reverse l

theorem trim_ne_nil {l : List Char} {x : Char} (hx : x ∈ l) (hs : isSpace x = false) :
    trimStr l ≠ [] := by
  intro hz
  unfold trimStr at hz
  rw [List.reverse_eq_nil_iff, List.dropWhile_eq_nil_iff] at hz
  have hx2 : x ∈ l.takeWhile isSpace ∨ x ∈ l.dropWhile isSpace := by
    have hsplit := List.takeWhile_append_dropWhile isSpace l
    rw [← hsplit] at hx
    exact List.mem_append.mp hx
  rcases hx2 with h | h
  · have h3 := List.mem_takeWhile_imp h
    rw [hs] at h3
    exact Bool.noConfusion h3
  · have h3 := hz x (List.mem_reverse.mpr h)
    rw [hs] at h3
    exact Bool.noConfusion h3

/-- Claim C7: the text-normalization pipeline (trim, delete whitespace
around the punctuation marks [.,?!], insert one space after a
punctuation mark followed by dot-matched text, trim) is idempotent:
normalizing its own output returns that output unchanged. -/
theorem normalizeText_idempotent (l : List Char) :
    normalizeText (normalizeText l) = normalizeText l := by
  have hchain := chain_strip (trimStr l)
  have htrimmed : trimStr (insertSpaceAfterPunct (stripWsAroundPunct (trimStr l))) =
      insertSpaceAfterPunct (stripWsAroundPunct (trimStr l)) := by
    apply trim_eq_self
    · intro x hx
      rw [insert_head?] at hx
      cases hsx : isSpace x with
      | false => rfl
      | true =>
        have h1 := strip_head_space hx hsx
        have h2 := trim_head_not_space h1
        rw [hsx] at h2
        exact Bool.noConfusion h2
    · intro x hx
      rw [insert_getLast?] at hx
      exact strip_getLast_aux (trimStr l).length (trimStr l) (Nat.le_refl _)
        (fun y hy => trim_getLast_not_space hy) x hx
  have hfix : normalizeText l =
      insertSpaceAfterPunct (stripWsAroundPunct (trimStr l)) := htrimmed
  rw [hfix]
  show trimStr (insertSpaceAfterPunct (stripWsAroundPunct
    (trimStr (insertSpaceAfterPunct (stripWsAroundPunct (trimStr l)))))) = _
  rw [htrimmed, strip_insert_of_chain hchain, htrimmed]

/-! ### The segmenter: invariants and scenarios -/

theorem resolveSpeaker_ne_nil (rs : List TResult) : resolveSpeaker rs ≠ [] := by
  unfold resolveSpeaker
  repeat' split
  any_goals assumption
  all_goals simp [defaultSpeaker]

theorem formatText_trim_ne_nil {m : List Char} (h : trimStr m ≠ []) :
    formatText (trimStr m) ≠ [] := by
  have hsne : stripWsAroundPunct (trimStr m) ≠ [] := strip_ne_nil h
  cases hstrip : stripWsAroundPunct (trimStr m) with
  | nil => exact absurd hstrip hsne
  | cons y ys =>
    have hyns : isSpace y = false := by
      cases hsy : isSpace y with
      | false => rfl
      | true =>
        have h1 := strip_head_space (l := trimStr m) (by rw [hstrip]; rfl) hsy
        have h2 := trim_head_not_space h1
        rw [hsy] at h2
        exact Bool.noConfusion h2
    have hmem : y ∈ insertSpaceAfterPunct (stripWsAroundPunct (trimStr m)) :=
      mem_insert_of_mem (by rw [hstrip]; exact List.mem_cons_self _ _)
    exact trim_ne_nil hmem hyns

theorem appendFinalText_ne_nil {cur fmt : List Char} (h : fmt ≠ []) :
    appendFinalText cur fmt ≠ [] := by
  by_cases hc : cur.isEmpty
  · simp only [appendFinalText, hc, if_true]
    exact h
  · simp only [appendFinalText, hc, Bool.false_eq_true, if_false]
    cases cur with
    | nil => simp at hc
    | cons a t => simp

theorem addTranscriptCore_inv {st : SegState} {sp fmt : List Char}
    (hsp : sp ≠ []) (hfmt : fmt ≠ []) :
    segInv (addTranscriptCore st sp fmt).1 := by
  unfold addTranscriptCore
  split
  · exact iff_of_false hfmt hsp
  · exact iff_of_false (appendFinalText_ne_nil hfmt) hsp

theorem autoClose_inv {st : SegState} (h : segInv st) : segInv (autoClose st).1 := by
  unfold autoClose
  split
  · exact Iff.rfl
  · exact h

theorem procEvent_inv {st : SegState} (e : TEvent) (h : segInv st) :
    segInv (procEvent st e).1 := by
  by_cases ht : joinedText e.results = []
  · show segInv (procEvent st e).1
    simp only [procEvent]
    rw [if_pos ht]
    exact h
  · have hfmt : formatText (joinedText e.results) ≠ [] := formatText_trim_ne_nil ht
    cases e with
    | addPartial rs =>
      simp only [procEvent, TEvent.results] at ht ⊢
      rw [if_neg ht]
      split
      · exact h
      · exact h
    | add rs =>
      simp only [procEvent, TEvent.results] at ht hfmt ⊢
      rw [if_neg ht]
      exact autoClose_inv (addTranscriptCore_inv (resolveSpeaker_ne_nil rs) hfmt)

theorem runSeg_nil (st : SegState) : runSeg st [] = (st, []) := rfl

theorem runSeg_cons (st : SegState) (e : TEvent) (es : List TEvent) :
    runSeg st (e :: es) =
      ((runSeg (procEvent st e).1 es).1,
       (procEvent st e).2 ++ (runSeg (procEvent st e).1 es).2) := rfl

theorem runSeg_inv : ∀ (es : List TEvent) (st : SegState), segInv st →
    segInv (runSeg st es).1 := by
  intro es
  induction es with
  | nil => intro st h; exact h
  | cons e es ih =>
    intro st h
    exact ih _ (procEvent_inv e h)

theorem runSeg_append : ∀ (es es' : List TEvent) (st : SegState),
    runSeg st (es ++ es') =
      ((runSeg (runSeg st es).1 es').1,
       (runSeg st es).2 ++ (runSeg (runSeg st es).1 es').2) := by
  intro es
  induction es with
  | nil =>
    intro es' st
    show runSeg st es' = ((runSeg st es').1, (runSeg st []).2 ++ (runSeg st es').2)
    simp [runSeg_nil]
  | cons e es ih =>
    intro es' st
    rw [List.cons_append, runSeg_cons, ih es' (procEvent st e).1, runSeg_cons]
    simp [List.append_assoc]

/-- Claim C6: for every sequence of processed transcript events the
segmenter state keeps at most one open turn — currentText is nonempty
exactly when currentSpeaker is — and the emissions of an already
processed prefix are never altered by later events: the trace of any
longer run is the prefix trace followed by the later emissions. -/
theorem segmenter_open_turn_invariant :
    (∀ es : List TEvent, segInv (runSeg ⟨[], []⟩ es).1) ∧
    (∀ (st : SegState) (es es' : List TEvent),
       ∃ t, (runSeg st (es ++ es')).2 = (runSeg st es).2 ++ t) := by
  constructor
  · intro es
    exact runSeg_inv es ⟨[], []⟩ Iff.rfl
  · intro st es es'
    exact ⟨(runSeg (runSeg st es).1 es').2, by rw [runSeg_append]⟩

/-- Claim C1: the final stream Hello, there. (same speaker S1) makes
the segmenter emit nothing at the first event, and exactly one final
segment S1 / Hello there. at the second event — currentText then ends
with a period — after which both currentText and currentSpeaker are
cleared. -/
theorem final_stream_hello_there :
    procEvent ⟨[], []⟩ (mkFinal "S1" "Hello") = (⟨"S1".toList, "Hello".toList⟩, []) ∧
    procEvent ⟨"S1".toList, "Hello".toList⟩ (mkFinal "S1" "there.") =
      (⟨[], []⟩, [⟨⟨"S1".toList, "Hello there.".toList⟩, false⟩]) ∧
    runSeg ⟨[], []⟩ [mkFinal "S1" "Hello", mkFinal "S1" "there."] =
      (⟨[], []⟩, [⟨⟨"S1".toList, "Hello there.".toList⟩, false⟩]) := by
  refine ⟨by decide, by decide, by decide⟩

/-- Claim C2: a final event whose resolved speaker differs from the
speaker of the nonempty open turn makes the segmenter emit the open
turn (old speaker, trimmed accumulated text) and reseed the open turn
with the event's normalized text and its speaker; the concrete stream
I feel fine (S1) / Good to hear (S2) emits exactly the final segment
S1 / I feel fine and leaves the turn for S2 open. -/
theorem final_speaker_change_emits_open_turn :
    (∀ (st : SegState) (rs : List TResult),
       joinedText rs ≠ [] →
       resolveSpeaker rs ≠ st.currentSpeaker →
       st.currentText ≠ [] →
       addTranscriptCore st (resolveSpeaker rs) (formatText (joinedText rs)) =
         (⟨resolveSpeaker rs, formatText (joinedText rs)⟩,
          [⟨⟨st.currentSpeaker, trimStr st.currentText⟩, false⟩]) ∧
       (procEvent st (TEvent.add rs)).2.head? =
         some ⟨⟨st.currentSpeaker, trimStr st.currentText⟩, false⟩) ∧
    runSeg ⟨[], []⟩ [mkFinal "S1" "I feel fine", mkFinal "S2" "Good to hear"] =
      (⟨"S2".toList, "Good to hear".toList⟩,
       [⟨⟨"S1".toList, "I feel fine".toList⟩, false⟩]) := by
  constructor
  · intro st rs h1 h2 h3
    have hcore : addTranscriptCore st (resolveSpeaker rs) (formatText (joinedText rs)) =
        (⟨resolveSpeaker rs, formatText (joinedText rs)⟩,
         [⟨⟨st.currentSpeaker, trimStr st.currentText⟩, false⟩]) := by
      unfold addTranscriptCore
      rw [if_pos ⟨h2, h3⟩]
    refine ⟨hcore, ?_⟩
    simp only [procEvent, TEvent.results]
    rw [if_neg h1, hcore]
    simp
  · decide

/-- Witness for claim C2 at the concrete speaker-change input. -/
theorem final_speaker_change_emits_open_turn_witness :
    addTranscriptCore ⟨"S1".toList, "I feel fine".toList⟩
        (resolveSpeaker [⟨[⟨"Good to hear".toList, some "S2".toList⟩]⟩])
        (formatText (joinedText [⟨[⟨"Good to hear".toList, some "S2".toList⟩]⟩])) =
      (⟨resolveSpeaker [⟨[⟨"Good to hear".toList, some "S2".toList⟩]⟩],
        formatText (joinedText [⟨[⟨"Good to hear".toList, some "S2".toList⟩]⟩])⟩,
       [⟨⟨"S1".toList, trimStr "I feel fine".toList⟩, false⟩]) ∧
    (procEvent ⟨"S1".toList, "I feel fine".toList⟩
        (TEvent.add [⟨[⟨"Good to hear".toList, some "S2".toList⟩]⟩])).2.head? =
      some ⟨⟨"S1".toList, trimStr "I feel fine".toList⟩, false⟩ :=
  final_speaker_change_emits_open_turn.1 ⟨"S1".toList, "I feel fine".toList⟩
    [⟨[⟨"Good to hear".toList, some "S2".toList⟩]⟩]
    (by decide) (by decide) (by decide)

/-- Claim C5: a partial transcript whose resolved speaker differs from
the speaker of the open turn is suppressed entirely — no segment of any
kind is emitted — and a partial preview is emitted only when the
event's speaker matches the open turn's or no turn is open. -/
theorem preview_suppressed_for_other_speaker :
    ∀ (st : SegState) (rs : List TResult),
      (resolveSpeaker rs ≠ st.currentSpeaker → st.currentSpeaker ≠ [] →
         (procEvent st (TEvent.addPartial rs)).2 = []) ∧
      ((procEvent st (TEvent.addPartial rs)).2 ≠ [] →
         resolveSpeaker rs = st.currentSpeaker ∨ st.currentSpeaker = []) := by
  intro st rs
  by_cases ht : joinedText rs = []
  · have hval : (procEvent st (TEvent.addPartial rs)).2 = [] := by
      simp only [procEvent, TEvent.results]
      rw [if_pos ht]
    exact ⟨fun _ _ => hval, fun hne => absurd hval hne⟩
  · by_cases hc : resolveSpeaker rs = st.currentSpeaker ∨ st.currentSpeaker = []
    · refine ⟨?_, fun _ => hc⟩
      intro h1 h2
      rcases hc with h | h
      · exact absurd h h1
      · exact absurd h h2
    · have hval : (procEvent st (TEvent.addPartial rs)).2 = [] := by
        simp only [procEvent, TEvent.results]
        rw [if_neg ht, if_neg hc]
      exact ⟨fun _ _ => hval, fun hne => absurd hval hne⟩

/-- Witness for claim C5: a partial for S2 while S1 holds the floor is
suppressed. -/
theorem preview_suppressed_for_other_speaker_witness :
    (procEvent ⟨"S1".toList, "Hi".toList⟩
       (TEvent.addPartial [⟨[⟨"no".toList, some "S2".toList⟩]⟩])).2 = [] :=
  (preview_suppressed_for_other_speaker ⟨"S1".toList, "Hi".toList⟩
      [⟨[⟨"no".toList, some "S2".toList⟩]⟩]).1 (by decide) (by decide)

/-- Claim C10: the multi-session server's per-event segmenter is the
single-session server's: on the same state and the same transcript
event both compute the same successor state and the same emitted
(speaker, text, is-final) values — the two listeners differ only in the
session tag and timestamps attached at emission time. -/
theorem multi_session_segmenter_refines_single (st : SegState) (e : TEvent) :
    procEventSingle st e = procEvent st e := by
  cases e <;> rfl

/-! ### The registry, cleanup, and the socket handlers -/

theorem regGet_cons (k : SessionId) (v : SessionRec) (r : Registry) (q : SessionId) :
    regGet ((k, v) :: r) q = if k = q then some v else regGet r q := rfl

theorem regSet_cons (k : SessionId) (w : SessionRec) (r : Registry) (q : SessionId)
    (v : SessionRec) :
    regSet ((k, w) :: r) q v =
      if k = q then (k, v) :: r else (k, w) :: regSet r q v := rfl

theorem regGet_regSet_self : ∀ (reg : Registry) (sid : SessionId) (v : SessionRec),
    regGet (regSet reg sid v) sid = some v := by
  intro reg sid v
  induction reg with
  | nil =>
    show regGet [(sid, v)] sid = some v
    rw [regGet_cons, if_pos rfl]
  | cons kv r ih =>
    obtain ⟨k, w⟩ := kv
    rw [regSet_cons]
    by_cases hk : k = sid
    · rw [if_pos hk, regGet_cons, if_pos hk]
    · rw [if_neg hk, regGet_cons, if_neg hk]
      exact ih

theorem regGet_regSet_ne : ∀ (reg : Registry) (sid : SessionId) (v : SessionRec)
    (q : SessionId), q ≠ sid → regGet (regSet reg sid v) q = regGet reg q := by
  intro reg sid v q hq
  induction reg with
  | nil =>
    show regGet [(sid, v)] q = regGet [] q
    rw [regGet_cons, if_neg (fun h => hq h.symm)]
  | cons kv r ih =>
    obtain ⟨k, w⟩ := kv
    rw [regSet_cons]
    by_cases hk : k = sid
    · subst hk
      rw [if_pos rfl, regGet_cons, regGet_cons, if_neg (fun h => hq h.symm),
        if_neg (fun h => hq h.symm)]
    · rw [if_neg hk, regGet_cons, regGet_cons]
      by_cases hkq : k = q
      · rw [if_pos hkq, if_pos hkq]
      · rw [if_neg hkq, if_neg hkq]
        exact ih

theorem cleanupClient_eq_none {reg : Registry} {sid : SessionId}
    (hg : regGet reg sid = none) : cleanupClient reg sid = (reg, false) := by
  unfold cleanupClient
  rw [hg]

theorem cleanupClient_eq_some {reg : Registry} {sid : SessionId} {s : SessionRec}
    (hg : regGet reg sid = some s) :
    cleanupClient reg sid =
      if s.hasClient then (regSet reg sid freshSession, true) else (reg, false) := by
  unfold cleanupClient
  rw [hg]

/-- Claim C8: destroying a session is idempotent.  A second cleanupClient
of the same identifier returns the once-cleaned registry unchanged and
issues no second upstream stop call, and cleanupClient of an identifier
that was never registered is a no-op that stops nothing. -/
theorem cleanup_idempotent : ∀ (reg : Registry) (sid : SessionId),
    cleanupClient (cleanupClient reg sid).1 sid = ((cleanupClient reg sid).1, false) ∧
    (regGet reg sid = none → cleanupClient reg sid = (reg, false)) := by
  intro reg sid
  constructor
  · cases hg : regGet reg sid with
    | none =>
      rw [cleanupClient_eq_none hg]
      show cleanupClient reg sid = (reg, false)
      exact cleanupClient_eq_none hg
    | some s =>
      rw [cleanupClient_eq_some hg]
      by_cases hc : s.hasClient
      · rw [if_pos hc]
        show cleanupClient (regSet reg sid freshSession) sid =
          (regSet reg sid freshSession, false)
        rw [cleanupClient_eq_some (regGet_regSet_self reg sid freshSession)]
        rfl
      · rw [if_neg hc]
        show cleanupClient reg sid = (reg, false)
        rw [cleanupClient_eq_some hg, if_neg hc]
  · intro hg
    exact cleanupClient_eq_none hg

/-- Witness for claim C8: double cleanup of a live session, and cleanup
of an unknown identifier. -/
theorem cleanup_idempotent_witness :
    cleanupClient (cleanupClient
        [(['x'], ⟨true, true, false, ['S', '1'], ['h', 'i'], []⟩)] ['x']).1 ['x'] =
      ((cleanupClient
        [(['x'], ⟨true, true, false, ['S', '1'], ['h', 'i'], []⟩)] ['x']).1, false) ∧
    cleanupClient [(['x'], ⟨true, true, false, ['S', '1'], ['h', 'i'], []⟩)] ['y'] =
      ([(['x'], ⟨true, true, false, ['S', '1'], ['h', 'i'], []⟩)], false) :=
  ⟨(cleanup_idempotent [(['x'], ⟨true, true, false, ['S', '1'], ['h', 'i'], []⟩)] ['x']).1,
   (cleanup_idempotent [(['x'], ⟨true, true, false, ['S', '1'], ['h', 'i'], []⟩)] ['y']).2
     (by decide)⟩

/-- Counterexample to claim C4 as stated: stopping a session whose open
turn accumulated the text Well,, hm (comma-started fragment appended
after a comma) emits the renormalized text Well, , hm — no emission
carries the trimmed accumulated text Well,, hm — and afterwards the
session identifier is still a key of the registry map (the entry is
cleared in place, not removed). -/
theorem stop_recording_removal_counterexample :
    (SrvAction.emitTranscription ⟨['S', '1'], trimStr ("Well,, hm".toList)⟩ false ['s'])
        ∉ (handleStopRecording
            [(['s'], ⟨true, true, false, ['S', '1'], "Well,, hm".toList, []⟩)] ['s']).2 ∧
    regGet (handleStopRecording
        [(['s'], ⟨true, true, false, ['S', '1'], "Well,, hm".toList, []⟩)] ['s']).1
      ['s'] ≠ none := by
  refine ⟨by decide, by decide⟩

/-- Claim C4 (amended): stopping a live session holding a nonempty open
turn emits exactly one final Display Segment, whose text is the open
turn's accumulated text renormalized (trimmed, whitespace around
punctuation removed, one space re-inserted after each punctuation mark,
trimmed — this equals the plain trimmed text whenever the accumulated
text is already in that normal form), issues one best-effort upstream
stop, and resets the session's registry entry in place to the fresh
state: the identifier remains a key of the map, but its entry equals a
fresh session, so the observable registry state is that of a registry
without the session. -/
theorem stop_recording_flush (reg : Registry) (sid : SessionId) (s : SessionRec)
    (h1 : regGet reg sid = some s) (h2 : s.hasClient = true)
    (h3 : s.currentText ≠ []) :
    handleStopRecording reg sid =
      (regSet reg sid freshSession,
       [SrvAction.emitTranscription ⟨s.currentSpeaker, normalizeText s.currentText⟩
          false sid,
        SrvAction.stopUpstream sid]) ∧
    regGet (handleStopRecording reg sid).1 sid = some freshSession := by
  have hmain : handleStopRecording reg sid =
      (regSet reg sid freshSession,
       [SrvAction.emitTranscription ⟨s.currentSpeaker, normalizeText s.currentText⟩
          false sid,
        SrvAction.stopUpstream sid]) := by
    simp only [handleStopRecording, h1]
    rw [if_pos h2, if_neg h3, cleanupClient_eq_some h1, if_pos h2]
    rfl
  refine ⟨hmain, ?_⟩
  rw [hmain]
  exact regGet_regSet_self reg sid freshSession

/-- Witness for claim C4 (amended) at a concrete live session. -/
theorem stop_recording_flush_witness :
    handleStopRecording
        [(['s'], ⟨true, true, false, ['S', '1'], "Hello".toList, []⟩)] ['s'] =
      (regSet [(['s'], ⟨true, true, false, ['S', '1'], "Hello".toList, []⟩)]
         ['s'] freshSession,
       [SrvAction.emitTranscription ⟨['S', '1'], normalizeText "Hello".toList⟩
          false ['s'],
        SrvAction.stopUpstream ['s']]) ∧
    regGet (handleStopRecording
        [(['s'], ⟨true, true, false, ['S', '1'], "Hello".toList, []⟩)] ['s']).1
      ['s'] = some freshSession :=
  stop_recording_flush
    [(['s'], ⟨true, true, false, ['S', '1'], "Hello".toList, []⟩)] ['s']
    ⟨true, true, false, ['S', '1'], "Hello".toList, []⟩
    (by decide) (by decide) (by decide)

/-- Claim C3 is contradicted by the code: when the credential secret is
missing, the throw happens before a client is installed, and the catch
block's cleanupClient is guarded on a non-null client, so it resets
nothing — the session entry keeps its connecting flag set instead of
being discarded, and every later audioData chunk for the same
identifier skips credential issuance and the connection attempt (its
trace contains no connect attempt for any environment outcome), rather
than creating a fresh session that retries.  The error message itself
is still emitted. -/
theorem audio_missing_key_leaves_stuck_session :
    handleAudioData false NetOutcome.waitTimeout [] ("default".toList) =
      ([("default".toList, { freshSession with isConnecting := true })],
       [SrvAction.emitError "default".toList]) ∧
    (∀ net : NetOutcome,
       ((handleAudioData true net
           [("default".toList, { freshSession with isConnecting := true })]
           "default".toList).2.contains
         (SrvAction.connectAttempt "default".toList)) = false) := by
  refine ⟨by decide, ?_⟩
  intro net
  cases net <;> decide

/-! ### Session isolation -/

theorem sessionSegState_getSession (reg : Registry) (sid : SessionId) :
    (⟨(getSession reg sid).2.currentSpeaker, (getSession reg sid).2.currentText⟩ :
        SegState) = sessionSegState reg sid := by
  unfold getSession sessionSegState
  cases hg : regGet reg sid with
  | some s => rfl
  | none => rfl

theorem sessionSegState_getSession_fst (reg : Registry) (sid q : SessionId) :
    sessionSegState (getSession reg sid).1 q = sessionSegState reg q := by
  unfold getSession
  cases hg : regGet reg sid with
  | some s => rfl
  | none =>
    unfold sessionSegState
    by_cases hq : q = sid
    · subst hq
      rw [regGet_regSet_self, hg]
      rfl
    · rw [regGet_regSet_ne reg sid freshSession q hq]

theorem handleTranscriptEvent_self (reg : Registry) (sid : SessionId) (e : TEvent) :
    sessionSegState (handleTranscriptEvent reg sid e).1 sid =
      (procEvent (sessionSegState reg sid) e).1 ∧
    (handleTranscriptEvent reg sid e).2 =
      (procEvent (sessionSegState reg sid) e).2.map
        (fun em => SrvAction.emitTranscription em.segment em.isPartial sid) := by
  constructor
  · show sessionSegState
      (regSet (getSession reg sid).1 sid
        { (getSession reg sid).2 with
            currentSpeaker :=
              (procEvent ⟨(getSession reg sid).2.currentSpeaker,
                 (getSession reg sid).2.currentText⟩ e).1.currentSpeaker,
            currentText :=
              (procEvent ⟨(getSession reg sid).2.currentSpeaker,
                 (getSession reg sid).2.currentText⟩ e).1.currentText }) sid = _
    unfold sessionSegState
    rw [regGet_regSet_self]
    show (procEvent ⟨(getSession reg sid).2.currentSpeaker,
        (getSession reg sid).2.currentText⟩ e).1 =
      (procEvent (sessionSegState reg sid) e).1
    rw [sessionSegState_getSession]
  · show (procEvent ⟨(getSession reg sid).2.currentSpeaker,
        (getSession reg sid).2.currentText⟩ e).2.map
          (fun em => SrvAction.emitTranscription em.segment em.isPartial sid) = _
    rw [sessionSegState_getSession]

theorem handleTranscriptEvent_snd (reg : Registry) (sid : SessionId) (e : TEvent) :
    (handleTranscriptEvent reg sid e).2 =
      (procEvent ⟨(getSession reg sid).2.currentSpeaker,
         (getSession reg sid).2.currentText⟩ e).2.map
        (fun em => SrvAction.emitTranscription em.segment em.isPartial sid) := rfl

theorem handleTranscriptEvent_other (reg : Registry) (sid q : SessionId) (e : TEvent)
    (h : q ≠ sid) :
    sessionSegState (handleTranscriptEvent reg sid e).1 q = sessionSegState reg q := by
  show sessionSegState (regSet (getSession reg sid).1 sid _) q = _
  unfold sessionSegState
  rw [regGet_regSet_ne _ _ _ _ h]
  have h2 := sessionSegState_getSession_fst reg sid q
  unfold sessionSegState at h2
  exact h2

theorem actionsFor_append (sid : SessionId) (a b : List SrvAction) :
    actionsFor sid (a ++ b) = actionsFor sid a ++ actionsFor sid b := by
  unfold actionsFor
  exact List.filter_append a b

theorem actionsFor_tagged_self (sid : SessionId) (ems : List Emission) :
    actionsFor sid
        (ems.map (fun em => SrvAction.emitTranscription em.segment em.isPartial sid)) =
      ems.map (fun em => SrvAction.emitTranscription em.segment em.isPartial sid) := by
  unfold actionsFor
  apply List.filter_eq_self.mpr
  intro a ha
  obtain ⟨em, _, rfl⟩ := List.mem_map.mp ha
  simp [SrvAction.sessionId]

theorem actionsFor_tagged_other {tagk q : SessionId} (h : q ≠ tagk)
    (ems : List Emission) :
    actionsFor q
        (ems.map (fun em => SrvAction.emitTranscription em.segment em.isPartial tagk)) =
      [] := by
  unfold actionsFor
  apply List.filter_eq_nil_iff.mpr
  intro a ha
  obtain ⟨em, _, rfl⟩ := List.mem_map.mp ha
  simp only [SrvAction.sessionId, decide_eq_true_eq]
  exact fun hh => h hh.symm

theorem eventsFor_cons_self (sid : SessionId) (e : TEvent)
    (evs : List (SessionId × TEvent)) :
    eventsFor sid ((sid, e) :: evs) = e :: eventsFor sid evs := by
  simp [eventsFor]

theorem eventsFor_cons_other {k sid : SessionId} (h : k ≠ sid) (e : TEvent)
    (evs : List (SessionId × TEvent)) :
    eventsFor sid ((k, e) :: evs) = eventsFor sid evs := by
  simp [eventsFor, h]

theorem runEvents_cons (reg : Registry) (sid : SessionId) (e : TEvent)
    (evs : List (SessionId × TEvent)) :
    runEvents reg ((sid, e) :: evs) =
      ((runEvents (handleTranscriptEvent reg sid e).1 evs).1,
       (handleTranscriptEvent reg sid e).2 ++
         (runEvents (handleTranscriptEvent reg sid e).1 evs).2) := rfl

/-- Claim C9: session isolation.  For every interleaved delivery of
transcript events to the sessions of one caller connection and every
session id, the transcription actions tagged with that id are exactly
the emissions of running that session's own event subsequence through
the segmenter alone, and the session's segmenter state afterwards is
the state of that stand-alone run — interleaving events of other
sessions changes nothing. -/
theorem session_isolation :
    ∀ (evs : List (SessionId × TEvent)) (reg : Registry) (sid : SessionId),
      actionsFor sid (runEvents reg evs).2 =
        (runSeg (sessionSegState reg sid) (eventsFor sid evs)).2.map
          (fun em => SrvAction.emitTranscription em.segment em.isPartial sid) ∧
      sessionSegState (runEvents reg evs).1 sid =
        (runSeg (sessionSegState reg sid) (eventsFor sid evs)).1 := by
  intro evs
  induction evs with
  | nil => intro reg sid; exact ⟨rfl, rfl⟩
  | cons p evs ih =>
    intro reg sid
    obtain ⟨k, e⟩ := p
    by_cases hk : k = sid
    · subst hk
      have hself := handleTranscriptEvent_self reg k e
      have ihh := ih (handleTranscriptEvent reg k e).1 k
      rw [runEvents_cons, eventsFor_cons_self, runSeg_cons]
      constructor
      · rw [actionsFor_append, hself.2, actionsFor_tagged_self, ihh.1, hself.1,
          List.map_append]
      · show sessionSegState (runEvents (handleTranscriptEvent reg k e).1 evs).1 k = _
        rw [ihh.2, hself.1]
    · have hother := handleTranscriptEvent_other reg k sid e (fun hh => hk hh.symm)
      have ihh := ih (handleTranscriptEvent reg k e).1 sid
      rw [runEvents_cons, eventsFor_cons_other hk]
      constructor
      · rw [actionsFor_append, ihh.1, hother, handleTranscriptEvent_snd,
          actionsFor_tagged_other (fun hh => hk hh.symm), List.nil_append]
      · show sessionSegState (runEvents (handleTranscriptEvent reg k e).1 evs).1 sid = _
        rw [ihh.2, hother]
